import Mathlib

/-!
Verification of the mellowplayer py3status module (src/py3status/modules/mellowplayer.py).

Python strings are modelled as lists of characters.  The two compiled
patterns of the module,

  after_delimiter  = ([\-,;/])([^\-,;/])*(w1|w2|...).*      (IGNORECASE)
  inside_brackets  = ([\(\[][^)\]]*?(w1|w2|...)[^)\]]*?[\)\]])  (IGNORECASE)

are modelled by backtracking matchers that follow the semantics of the
Python re module on exactly these two pattern shapes: lazy repetition
tries the shortest extension first, greedy repetition the longest,
alternation is tried in word-list order, the dot does not match a
newline, and re.sub removes every non-overlapping match scanning left
to right, continuing at the end of each match.  IGNORECASE is modelled
by comparing characters through Char.toLower.
-/

namespace Mellowplayer

/-- Python str modelled as a list of characters. -/
abbrev PyStr := List Char

/-- Characters excluded by the content classes of inside_brackets and
matched by its final class: the closing brackets. -/
def isClose (c : Char) : Bool := c = ')' || c = ']'

/-- Characters matched by the leading class of inside_brackets: the
opening brackets. -/
def isOpen (c : Char) : Bool := c = '(' || c = '['

/-- Characters of the delimiter class of after_delimiter. -/
def isDelim (c : Char) : Bool := c = '-' || c = ',' || c = ';' || c = '/'

/-- Case-insensitive literal match of a word at the head of a string
(re.IGNORECASE modelled via Char.toLower); returns the remainder. -/
def dropCI : PyStr → PyStr → Option PyStr
  | [], s => some s
  | _ :: _, [] => none
  | w :: ws, c :: cs => if w.toLower = c.toLower then dropCI ws cs else none

/-- Scan of the lazy tail of inside_brackets after the matched word:
shortest run of non-closing characters followed by a closing bracket;
returns the remainder after the closing bracket. -/
def findClose : PyStr → Option PyStr
  | [] => none
  | c :: cs => if isClose c then some cs else findClose cs

/-- Alternation of the sanitize words at the current position inside
brackets, each continued by the close scan; alternatives are tried in
word-list order, as the compiled alternation does. -/
def tryWordsB (W : List PyStr) (s : PyStr) : Option PyStr :=
  match W with
  | [] => none
  | w :: ws =>
    match dropCI w s with
    | some r =>
      match findClose r with
      | some rem => some rem
      | none => tryWordsB ws s
    | none => tryWordsB ws s

/-- Body of inside_brackets after the opening bracket: lazy non-closing
content, then a sanitize word, then lazy content and a closing bracket.
Lazy repetition: the word is tried at the current position before the
content is extended by one more non-closing character. -/
def matchInside (W : List PyStr) : PyStr → Option PyStr
  | [] => none
  | c :: cs =>
    match tryWordsB W (c :: cs) with
    | some rem => some rem
    | none => if isClose c then none else matchInside W cs

/-- Greedy dot-star of after_delimiter: consume up to (not including)
the next newline; the remainder starts at the newline, or is empty. -/
def dotStar (s : PyStr) : PyStr := s.dropWhile (fun c => c ≠ '\n')

/-- Alternation of the sanitize words at the current position after a
delimiter, each continued by the greedy dot-star (which always
succeeds). -/
def tryWordsD (W : List PyStr) (s : PyStr) : Option PyStr :=
  match W with
  | [] => none
  | w :: ws =>
    match dropCI w s with
    | some r => some (dotStar r)
    | none => tryWordsD ws s

/-- Body of after_delimiter after the delimiter: greedy non-delimiter
content, then a sanitize word, then greedy dot-star.  Greedy
repetition: the longest content extension is tried before the word is
tried at the current position. -/
def matchContent (W : List PyStr) : PyStr → Option PyStr
  | [] => tryWordsD W []
  | c :: cs =>
    match (if isDelim c then none else matchContent W cs) with
    | some rem => some rem
    | none => tryWordsD W (c :: cs)

/-- Fueled scan of re.sub(inside_brackets, "", s): at each position a
match is attempted when the head is an opening bracket; a match is
removed and the scan continues at its end.  The fuel only serves
termination; with fuel at least the length of the input the zero case
is never reached. -/
def bsubF (W : List PyStr) : Nat → PyStr → PyStr
  | 0, s => s
  | f + 1, s =>
    match s with
    | [] => []
    | c :: cs =>
      if isOpen c then
        match matchInside W cs with
        | some rem => bsubF W f rem
        | none => c :: bsubF W f cs
      else c :: bsubF W f cs

/-- re.sub(inside_brackets, "", s). -/
def bsub (W : List PyStr) (s : PyStr) : PyStr := bsubF W s.length s

/-- Fueled scan of re.sub(after_delimiter, "", s): at each position a
match is attempted when the head is a delimiter. -/
def dsubF (W : List PyStr) : Nat → PyStr → PyStr
  | 0, s => s
  | f + 1, s =>
    match s with
    | [] => []
    | c :: cs =>
      if isDelim c then
        match matchContent W cs with
        | some rem => dsubF W f rem
        | none => c :: dsubF W f cs
      else c :: dsubF W f cs

/-- re.sub(after_delimiter, "", s). -/
def dsub (W : List PyStr) (s : PyStr) : PyStr := dsubF W s.length s

/-- Python default whitespace for str.strip (the ASCII part; the
module's data is ASCII). -/
def pyIsSpace (c : Char) : Bool :=
  c = ' ' || c = '\t' || c = '\n' || c = '\r' || c = Char.ofNat 11 || c = Char.ofNat 12

/-- Python str.strip(): remove leading and trailing whitespace. -/
def pyStrip (s : PyStr) : PyStr :=
  (((s.dropWhile pyIsSpace).reverse).dropWhile pyIsSpace).reverse

/-- The default sanitize_words configuration of the module. -/
def defaultWords : List PyStr :=
  ["bonus", "demo", "edit", "explicit", "extended", "feat", "mono",
   "remaster", "stereo", "version"].map String.toList

/-- Py3status._sanitize_title: remove bracketed segments, then trailing
delimiter segments, then strip surrounding whitespace. -/
def sanitizeTitle (W : List PyStr) (title : PyStr) : PyStr :=
  pyStrip (dsub W (bsub W title))

/-! Declarative characterizations of the two matchers. -/

/-- Pointwise case-insensitive equality of strings. -/
def ciEq (a b : PyStr) : Prop := a.map Char.toLower = b.map Char.toLower

/-- No configured word case-folds onto a closing bracket character. -/
def closeFree (W : List PyStr) : Prop :=
  ∀ w ∈ W, ∀ d ∈ w, d.toLower ≠ ')' ∧ d.toLower ≠ ']'

/-- A match of the inside_brackets body exists on s: a run of
non-closing characters, then a sanitize word (case-insensitively), then
a closing bracket somewhere after it. -/
def bMatchable (W : List PyStr) (s : PyStr) : Prop :=
  ∃ a wd b w, a ++ wd ++ b = s ∧ (∀ c ∈ a, isClose c = false) ∧
    w ∈ W ∧ ciEq wd w ∧ ∃ c ∈ b, isClose c = true

/-- A match of the after_delimiter body exists on s: a run of
non-delimiter characters followed by a sanitize word. -/
def dMatchable (W : List PyStr) (s : PyStr) : Prop :=
  ∃ a wd b w, a ++ wd ++ b = s ∧ (∀ c ∈ a, isDelim c = false) ∧
    w ∈ W ∧ ciEq wd w

theorem isOpen_isClose_false {c : Char} (h : isOpen c = true) : isClose c = false := by
  have : c = '(' ∨ c = '[' := by
    simpa [isOpen, or_iff_not_imp_left] using h
  rcases this with h | h <;> simp [h, isClose]

theorem isClose_toLower {c : Char} (h : isClose c = true) : c.toLower = c := by
  have : c = ')' ∨ c = ']' := by
    simpa [isClose, or_iff_not_imp_left] using h
  rcases this with h | h <;> subst h <;> decide

theorem ciEq_nil_left {w : PyStr} (h : ciEq [] w) : w = [] := by
  simpa [ciEq, eq_comm, List.map_eq_nil_iff] using h

theorem ciEq_cons {c : Char} {u w1 : _} {ws : PyStr} (h : ciEq (c :: u) (w1 :: ws)) :
    c.toLower = w1.toLower ∧ ciEq u ws := by
  simpa [ciEq] using h

theorem ciEq_cons_ex {c : Char} {u ws : PyStr} (h : ciEq (c :: u) ws) :
    ∃ w1 ws', ws = w1 :: ws' ∧ c.toLower = w1.toLower ∧ ciEq u ws' := by
  cases ws with
  | nil => simp [ciEq] at h
  | cons w1 ws' =>
    obtain ⟨h1, h2⟩ := ciEq_cons h
    exact ⟨w1, ws', rfl, h1, h2⟩

theorem ciEq_noClose {w wd : PyStr}
    (hci : ciEq wd w) (hw : ∀ d ∈ w, d.toLower ≠ ')' ∧ d.toLower ≠ ']') :
    ∀ c ∈ wd, isClose c = false := by
  intro c hc
  cases hcb : isClose c with
  | false => rfl
  | true =>
    exfalso
    have hmem : c.toLower ∈ wd.map Char.toLower := List.mem_map_of_mem _ hc
    rw [hci] at hmem
    obtain ⟨d, hd, hde⟩ := List.mem_map.mp hmem
    have hcle : c.toLower = c := isClose_toLower hcb
    have hdc : d.toLower = c := by rw [hde, hcle]
    have hor : c = ')' ∨ c = ']' := by simpa [isClose, or_iff_not_imp_left] using hcb
    rcases hor with h | h
    · exact (hw d hd).1 (by rw [hdc, h])
    · exact (hw d hd).2 (by rw [hdc, h])

theorem bMatchable_cons {W : List PyStr} {c : Char} {s : PyStr}
    (hc : isClose c = false) (h : bMatchable W s) : bMatchable W (c :: s) := by
  obtain ⟨a, wd, b, w, hs, ha, hw, hci, hcl⟩ := h
  refine ⟨c :: a, wd, b, w, by simp [hs], ?_, hw, hci, hcl⟩
  intro x hx
  rcases List.mem_cons.mp hx with h | h
  · exact h ▸ hc
  · exact ha x h

theorem bMatchable_append {W : List PyStr} {s t : PyStr}
    (h : bMatchable W s) : bMatchable W (s ++ t) := by
  obtain ⟨a, wd, b, w, hs, ha, hw, hci, c, hc, hcl⟩ := h
  exact ⟨a, wd, b ++ t, w, by rw [← hs]; simp, ha, hw, hci, c,
    List.mem_append_left _ hc, hcl⟩

theorem dMatchable_cons {W : List PyStr} {c : Char} {s : PyStr}
    (hc : isDelim c = false) (h : dMatchable W s) : dMatchable W (c :: s) := by
  obtain ⟨a, wd, b, w, hs, ha, hw, hci⟩ := h
  refine ⟨c :: a, wd, b, w, by simp [hs], ?_, hw, hci⟩
  intro x hx
  rcases List.mem_cons.mp hx with h | h
  · exact h ▸ hc
  · exact ha x h

theorem dMatchable_append {W : List PyStr} {s t : PyStr}
    (h : dMatchable W s) : dMatchable W (s ++ t) := by
  obtain ⟨a, wd, b, w, hs, ha, hw, hci⟩ := h
  exact ⟨a, wd, b ++ t, w, by rw [← hs]; simp, ha, hw, hci⟩

/-! Lemmas about the primitive scans. -/

theorem dropCI_some {w s r : PyStr} (h : dropCI w s = some r) :
    ∃ wd, wd ++ r = s ∧ ciEq wd w := by
  induction w generalizing s with
  | nil =>
    simp only [dropCI, Option.some.injEq] at h
    exact ⟨[], by simp [h], by simp [ciEq]⟩
  | cons a ws ih =>
    cases s with
    | nil => simp [dropCI] at h
    | cons c cs =>
      simp only [dropCI] at h
      by_cases hc : a.toLower = c.toLower
      · rw [if_pos hc] at h
        obtain ⟨wd, hwd, hci⟩ := ih h
        refine ⟨c :: wd, by simp [hwd], ?_⟩
        simp only [ciEq, List.map_cons, List.cons.injEq]
        exact ⟨hc.symm, hci⟩
      · rw [if_neg hc] at h
        exact absurd h (by simp)

theorem dropCI_of_ciEq {w wd : PyStr} (r : PyStr) (h : ciEq wd w) :
    dropCI w (wd ++ r) = some r := by
  induction w generalizing wd with
  | nil =>
    have : wd = [] := by simpa [ciEq, List.map_eq_nil_iff] using h
    subst this; rfl
  | cons a ws ih =>
    cases wd with
    | nil => simp [ciEq] at h
    | cons c cs =>
      obtain ⟨h1, h2⟩ : c.toLower = a.toLower ∧ ciEq cs ws := by simpa [ciEq] using h
      simpa [dropCI, h1.symm] using ih h2

theorem findClose_some {s rem : PyStr} (h : findClose s = some rem) :
    ∃ b1 cl, b1 ++ cl :: rem = s ∧ (∀ c ∈ b1, isClose c = false) ∧ isClose cl = true := by
  induction s with
  | nil => simp [findClose] at h
  | cons c cs ih =>
    simp only [findClose] at h
    by_cases hc : isClose c = true
    · rw [if_pos hc] at h
      obtain rfl : cs = rem := by simpa using h
      exact ⟨[], c, rfl, by simp, hc⟩
    · rw [if_neg hc] at h
      obtain ⟨b1, cl, hb, hnc, hcl⟩ := ih h
      refine ⟨c :: b1, cl, by simp [hb], ?_, hcl⟩
      intro x hx
      rcases List.mem_cons.mp hx with h' | h'
      · subst h'; simpa using hc
      · exact hnc x h'

theorem findClose_isSome {s : PyStr} {c : Char} (hc : c ∈ s) (h : isClose c = true) :
    (findClose s).isSome = true := by
  induction s with
  | nil => cases hc
  | cons x xs ih =>
    by_cases hx : isClose x = true
    · simp [findClose, hx]
    · rcases List.mem_cons.mp hc with h' | h'
      · exact absurd (h' ▸ h) (by simpa using hx)
      · simpa [findClose, hx] using ih h'

/-! The alternation scans. -/

theorem tryWordsB_some {W : List PyStr} {s rem : PyStr} (h : tryWordsB W s = some rem) :
    ∃ w ∈ W, ∃ wd r, wd ++ r = s ∧ ciEq wd w ∧ findClose r = some rem := by
  induction W with
  | nil => simp [tryWordsB] at h
  | cons w ws ih =>
    simp only [tryWordsB] at h
    cases hd : dropCI w s with
    | none =>
      simp only [hd] at h
      obtain ⟨w', hw', rest⟩ := ih h
      exact ⟨w', List.mem_cons_of_mem _ hw', rest⟩
    | some r =>
      simp only [hd] at h
      cases hf : findClose r with
      | none =>
        simp only [hf] at h
        obtain ⟨w', hw', rest⟩ := ih h
        exact ⟨w', List.mem_cons_of_mem _ hw', rest⟩
      | some rem' =>
        simp only [hf] at h
        obtain rfl : rem' = rem := by simpa using h
        obtain ⟨wd, hwd, hci⟩ := dropCI_some hd
        exact ⟨w, List.mem_cons_self _ _, wd, r, hwd, hci, hf⟩

theorem tryWordsB_isSome {W : List PyStr} (hcf : closeFree W) {w wd b : PyStr}
    (hw : w ∈ W) (hci : ciEq wd w) (hcl : ∃ c ∈ b, isClose c = true) :
    (tryWordsB W (wd ++ b)).isSome = true := by
  induction W with
  | nil => cases hw
  | cons w' ws ih =>
    simp only [tryWordsB]
    cases hd : dropCI w' (wd ++ b) with
    | none =>
      have hwmem : w ∈ ws := by
        rcases List.mem_cons.mp hw with h | h
        · subst h
          rw [dropCI_of_ciEq b hci] at hd
          cases hd
        · exact h
      have hcf' : closeFree ws := fun x hx => hcf x (List.mem_cons_of_mem _ hx)
      exact ih hcf' hwmem
    | some r =>
      obtain ⟨wd', hwd', hci'⟩ := dropCI_some hd
      obtain ⟨c, hcmem, hcc⟩ := hcl
      have hcs : c ∈ wd' ++ r := by
        rw [hwd']
        exact List.mem_append_right _ hcmem
      have hcr : c ∈ r := by
        rcases List.mem_append.mp hcs with h | h
        · have := ciEq_noClose hci' (hcf w' (List.mem_cons_self _ _)) c h
          rw [this] at hcc
          cases hcc
        · exact h
      cases hf : findClose r with
      | none =>
        have := findClose_isSome hcr hcc
        rw [hf] at this
        cases this
      | some rem => simp [hd, hf]

theorem tryWordsD_some {W : List PyStr} {s rem : PyStr} (h : tryWordsD W s = some rem) :
    ∃ w ∈ W, ∃ wd r, wd ++ r = s ∧ ciEq wd w ∧ rem = dotStar r := by
  induction W with
  | nil => simp [tryWordsD] at h
  | cons w ws ih =>
    simp only [tryWordsD] at h
    cases hd : dropCI w s with
    | none =>
      simp only [hd] at h
      obtain ⟨w', hw', rest⟩ := ih h
      exact ⟨w', List.mem_cons_of_mem _ hw', rest⟩
    | some r =>
      simp only [hd] at h
      obtain rfl : dotStar r = rem := by simpa using h
      obtain ⟨wd, hwd, hci⟩ := dropCI_some hd
      exact ⟨w, List.mem_cons_self _ _, wd, r, hwd, hci, rfl⟩

theorem tryWordsD_isSome {W : List PyStr} {w wd : PyStr} (b : PyStr)
    (hw : w ∈ W) (hci : ciEq wd w) :
    (tryWordsD W (wd ++ b)).isSome = true := by
  induction W with
  | nil => cases hw
  | cons w' ws ih =>
    simp only [tryWordsD]
    cases hd : dropCI w' (wd ++ b) with
    | none =>
      have hwmem : w ∈ ws := by
        rcases List.mem_cons.mp hw with h | h
        · subst h
          rw [dropCI_of_ciEq b hci] at hd
          cases hd
        · exact h
      exact ih hwmem
    | some r => simp

/-! Match existence characterizations. -/

theorem matchInside_some {W : List PyStr} {s rem : PyStr}
    (h : matchInside W s = some rem) : bMatchable W s := by
  induction s with
  | nil => simp [matchInside] at h
  | cons c cs ih =>
    simp only [matchInside] at h
    cases ht : tryWordsB W (c :: cs) with
    | some r =>
      rw [ht] at h
      obtain ⟨w, hw, wd, r', hsplit, hci, hfc⟩ := tryWordsB_some ht
      obtain ⟨b1, cl, hb, hnc, hcl⟩ := findClose_some hfc
      exact ⟨[], wd, r', w, by simpa using hsplit, by simp, hw, hci, cl,
        by rw [← hb]; exact List.mem_append_right _ (List.mem_cons_self _ _), hcl⟩
    | none =>
      rw [ht] at h
      by_cases hc : isClose c = true
      · rw [if_pos hc] at h; cases h
      · rw [if_neg hc] at h
        exact bMatchable_cons (by simpa using hc) (ih h)

theorem bMatchable_isSome {W : List PyStr} (hcf : closeFree W) {s : PyStr}
    (h : bMatchable W s) : (matchInside W s).isSome = true := by
  obtain ⟨a, wd, b, w, hs, ha, hw, hci, hcl⟩ := h
  subst hs
  induction a with
  | nil =>
    have htw := tryWordsB_isSome hcf hw hci hcl
    simp only [List.nil_append] at htw ⊢
    cases hsplit : wd ++ b with
    | nil =>
      obtain ⟨c, hc, _⟩ := hcl
      obtain ⟨-, rfl⟩ := List.append_eq_nil.mp hsplit
      cases hc
    | cons c cs =>
      rw [hsplit] at htw
      simp only [matchInside]
      cases ht : tryWordsB W (c :: cs) with
      | none => rw [ht] at htw; cases htw
      | some r => simp
  | cons c a₂ ih =>
    simp only [List.cons_append, matchInside]
    cases ht : tryWordsB W (c :: (a₂ ++ wd ++ b)) with
    | some r => simp
    | none =>
      have hc : isClose c = false := ha c (List.mem_cons_self _ _)
      rw [hc]
      simp only [Bool.false_eq_true, if_false]
      exact ih (fun x hx => ha x (List.mem_cons_of_mem _ hx))

theorem matchContent_some {W : List PyStr} {s rem : PyStr}
    (h : matchContent W s = some rem) : dMatchable W s := by
  induction s with
  | nil =>
    simp only [matchContent] at h
    obtain ⟨w, hw, wd, r, hsplit, hci, -⟩ := tryWordsD_some h
    exact ⟨[], wd, r, w, by simpa using hsplit, by simp, hw, hci⟩
  | cons c cs ih =>
    simp only [matchContent] at h
    by_cases hdC : isDelim c = true
    · rw [hdC] at h
      simp only [if_true] at h
      obtain ⟨w, hw, wd, r, hsplit, hci, -⟩ := tryWordsD_some h
      exact ⟨[], wd, r, w, by simpa using hsplit, by simp, hw, hci⟩
    · have hdC' : isDelim c = false := by simpa using hdC
      rw [hdC'] at h
      simp only [Bool.false_eq_true, if_false] at h
      cases hm : matchContent W cs with
      | some r =>
        simp only [hm] at h
        obtain rfl : r = rem := by simpa using h
        exact dMatchable_cons hdC' (ih hm)
      | none =>
        simp only [hm] at h
        obtain ⟨w, hw, wd, r, hsplit, hci, -⟩ := tryWordsD_some h
        exact ⟨[], wd, r, w, by simpa using hsplit, by simp, hw, hci⟩

theorem dMatchable_isSome {W : List PyStr} {s : PyStr}
    (h : dMatchable W s) : (matchContent W s).isSome = true := by
  obtain ⟨a, wd, b, w, hs, ha, hw, hci⟩ := h
  subst hs
  induction a with
  | nil =>
    have htw := tryWordsD_isSome b hw hci
    simp only [List.nil_append] at htw ⊢
    cases hsplit : wd ++ b with
    | nil => simpa [matchContent, hsplit] using htw
    | cons c cs =>
      rw [hsplit] at htw
      simp only [matchContent]
      cases hm : (if isDelim c = true then none else matchContent W cs) with
      | some r => simp
      | none =>
        cases ht : tryWordsD W (c :: cs) with
        | none => rw [ht] at htw; cases htw
        | some r => simp [ht]
  | cons c a₂ ih =>
    have hc : isDelim c = false := ha c (List.mem_cons_self _ _)
    have ihs := ih (fun x hx => ha x (List.mem_cons_of_mem _ hx))
    simp only [List.cons_append, matchContent, hc]
    simp only [Bool.false_eq_true, if_false]
    cases hm : matchContent W (a₂ ++ wd ++ b) with
    | none => rw [hm] at ihs; simp at ihs
    | some r => simp

/-! Remainders of successful matches are tails of the input. -/

theorem matchInside_rem {W : List PyStr} {s rem : PyStr}
    (h : matchInside W s = some rem) : ∃ t, t ++ rem = s := by
  induction s with
  | nil => simp [matchInside] at h
  | cons c cs ih =>
    simp only [matchInside] at h
    cases ht : tryWordsB W (c :: cs) with
    | some r =>
      simp only [ht] at h
      obtain rfl : r = rem := by simpa using h
      obtain ⟨w, hw, wd, r', hsplit, hci, hfc⟩ := tryWordsB_some ht
      obtain ⟨b1, cl, hb, -, -⟩ := findClose_some hfc
      exact ⟨wd ++ (b1 ++ [cl]), by
        rw [← hsplit, ← hb]; simp⟩
    | none =>
      simp only [ht] at h
      by_cases hc : isClose c = true
      · rw [if_pos hc] at h; cases h
      · rw [if_neg hc] at h
        obtain ⟨t, ht'⟩ := ih h
        exact ⟨c :: t, by simp [ht']⟩

theorem matchContent_rem {W : List PyStr} {s rem : PyStr}
    (h : matchContent W s = some rem) : ∃ r t, rem = dotStar r ∧ t ++ r = s := by
  induction s with
  | nil =>
    simp only [matchContent] at h
    obtain ⟨w, hw, wd, r, hsplit, hci, hst⟩ := tryWordsD_some h
    exact ⟨r, wd, hst, hsplit⟩
  | cons c cs ih =>
    simp only [matchContent] at h
    cases hm : (if isDelim c = true then none else matchContent W cs) with
    | some r =>
      simp only [hm] at h
      obtain rfl : r = rem := by simpa using h
      by_cases hdC : isDelim c = true
      · rw [if_pos hdC] at hm; cases hm
      · rw [if_neg hdC] at hm
        obtain ⟨r', t, hst, ht'⟩ := ih hm
        exact ⟨r', c :: t, hst, by simp [ht']⟩
    | none =>
      simp only [hm] at h
      obtain ⟨w, hw, wd, r, hsplit, hci, hst⟩ := tryWordsD_some h
      exact ⟨r, wd, hst, hsplit⟩

theorem dotStar_app (r : PyStr) : ∃ t, t ++ dotStar r = r :=
  ⟨r.takeWhile (fun c => c ≠ '\n'),
    List.takeWhile_append_dropWhile (fun c => decide (c ≠ '\n')) r⟩

theorem matchInside_rem_le {W : List PyStr} {s rem : PyStr}
    (h : matchInside W s = some rem) : rem.length ≤ s.length := by
  obtain ⟨t, ht⟩ := matchInside_rem h
  rw [← ht]; simp

theorem matchContent_rem_le {W : List PyStr} {s rem : PyStr}
    (h : matchContent W s = some rem) : rem.length ≤ s.length := by
  obtain ⟨r, t, hst, ht⟩ := matchContent_rem h
  obtain ⟨t', ht'⟩ := dotStar_app r
  have h1 : rem.length ≤ r.length := by
    rw [hst]
    calc (dotStar r).length ≤ t'.length + (dotStar r).length := Nat.le_add_left _ _
      _ = r.length := by
        conv_rhs => rw [← ht']
        simp
  have h2 : r.length ≤ s.length := by
    rw [← ht]
    simp
  exact le_trans h1 h2

theorem matchContent_noNl {W : List PyStr} {s rem : PyStr}
    (hnl : '\n' ∉ s) (h : matchContent W s = some rem) : rem = [] := by
  obtain ⟨r, t, hst, ht⟩ := matchContent_rem h
  subst hst
  have hr : '\n' ∉ r := fun hm => hnl (by rw [← ht]; exact List.mem_append_right _ hm)
  simp only [dotStar, List.dropWhile_eq_nil_iff]
  intro x hx
  simp only [ne_eq, decide_eq_true_eq]
  intro hxe
  exact hr (hxe ▸ hx)

/-! Fuel handling for the substitution scans. -/

theorem bsubF_nil (W : List PyStr) (f : Nat) : bsubF W f [] = [] := by
  cases f <;> rfl

theorem dsubF_nil (W : List PyStr) (f : Nat) : dsubF W f [] = [] := by
  cases f <;> rfl

theorem bsubF_fuel (W : List PyStr) :
    ∀ f g s, s.length ≤ f → s.length ≤ g → bsubF W f s = bsubF W g s := by
  intro f
  induction f with
  | zero =>
    intro g s hf hg
    obtain rfl : s = [] := List.eq_nil_of_length_eq_zero (Nat.le_zero.mp hf)
    rw [bsubF_nil, bsubF_nil]
  | succ f ih =>
    intro g s hf hg
    cases s with
    | nil => rw [bsubF_nil, bsubF_nil]
    | cons c cs =>
      cases g with
      | zero => simp at hg
      | succ g' =>
      simp only [List.length_cons, Nat.succ_le_succ_iff] at hf hg
      simp only [bsubF]
      by_cases ho : isOpen c = true
      · rw [ho]
        simp only [if_true]
        cases hm : matchInside W cs with
        | some rem =>
          exact ih g' rem (le_trans (matchInside_rem_le hm) hf)
            (le_trans (matchInside_rem_le hm) hg)
        | none => rw [ih g' cs hf hg]
      · have ho' : isOpen c = false := by simpa using ho
        rw [ho']
        simp only [Bool.false_eq_true, if_false]
        rw [ih g' cs hf hg]

theorem dsubF_fuel (W : List PyStr) :
    ∀ f g s, s.length ≤ f → s.length ≤ g → dsubF W f s = dsubF W g s := by
  intro f
  induction f with
  | zero =>
    intro g s hf hg
    obtain rfl : s = [] := List.eq_nil_of_length_eq_zero (Nat.le_zero.mp hf)
    rw [dsubF_nil, dsubF_nil]
  | succ f ih =>
    intro g s hf hg
    cases s with
    | nil => rw [dsubF_nil, dsubF_nil]
    | cons c cs =>
      cases g with
      | zero => simp at hg
      | succ g' =>
      simp only [List.length_cons, Nat.succ_le_succ_iff] at hf hg
      simp only [dsubF]
      by_cases hdC : isDelim c = true
      · rw [hdC]
        simp only [if_true]
        cases hm : matchContent W cs with
        | some rem =>
          exact ih g' rem (le_trans (matchContent_rem_le hm) hf)
            (le_trans (matchContent_rem_le hm) hg)
        | none => rw [ih g' cs hf hg]
      · have hdC' : isDelim c = false := by simpa using hdC
        rw [hdC']
        simp only [Bool.false_eq_true, if_false]
        rw [ih g' cs hf hg]

theorem bsub_nil (W : List PyStr) : bsub W [] = [] := rfl

theorem dsub_nil (W : List PyStr) : dsub W [] = [] := rfl

theorem bsub_cons_drop {W : List PyStr} {c : Char} {cs rem : PyStr}
    (ho : isOpen c = true) (hm : matchInside W cs = some rem) :
    bsub W (c :: cs) = bsub W rem := by
  show bsubF W (c :: cs).length (c :: cs) = bsubF W rem.length rem
  simp only [List.length_cons, bsubF, ho, if_true, hm]
  exact bsubF_fuel W cs.length rem.length rem (matchInside_rem_le hm) le_rfl

theorem bsub_cons_keep {W : List PyStr} {c : Char} {cs : PyStr}
    (h : isOpen c = false ∨ matchInside W cs = none) :
    bsub W (c :: cs) = c :: bsub W cs := by
  show bsubF W (c :: cs).length (c :: cs) = c :: bsubF W cs.length cs
  rcases h with h | h
  · simp only [List.length_cons, bsubF, h, Bool.false_eq_true, if_false]
  · by_cases ho : isOpen c = true
    · simp only [List.length_cons, bsubF, ho, if_true, h]
    · have ho' : isOpen c = false := by simpa using ho
      simp only [List.length_cons, bsubF, ho', Bool.false_eq_true, if_false]

theorem dsub_cons_drop {W : List PyStr} {c : Char} {cs rem : PyStr}
    (hdC : isDelim c = true) (hm : matchContent W cs = some rem) :
    dsub W (c :: cs) = dsub W rem := by
  show dsubF W (c :: cs).length (c :: cs) = dsubF W rem.length rem
  simp only [List.length_cons, dsubF, hdC, if_true, hm]
  exact dsubF_fuel W cs.length rem.length rem (matchContent_rem_le hm) le_rfl

theorem dsub_cons_keep {W : List PyStr} {c : Char} {cs : PyStr}
    (h : isDelim c = false ∨ matchContent W cs = none) :
    dsub W (c :: cs) = c :: dsub W cs := by
  show dsubF W (c :: cs).length (c :: cs) = c :: dsubF W cs.length cs
  rcases h with h | h
  · simp only [List.length_cons, dsubF, h, Bool.false_eq_true, if_false]
  · by_cases hdC : isDelim c = true
    · simp only [List.length_cons, dsubF, hdC, if_true, h]
    · have hdC' : isDelim c = false := by simpa using hdC
      simp only [List.length_cons, dsubF, hdC', Bool.false_eq_true, if_false]

theorem bsub_subset {W : List PyStr} :
    ∀ n s, List.length s = n → ∀ c ∈ bsub W s, c ∈ s := by
  intro n
  induction n using Nat.strong_induction_on with
  | _ n ih =>
  intro s hn
  cases s with
  | nil => simp [bsub_nil]
  | cons c cs =>
    intro x hx
    by_cases ho : isOpen c = true
    · cases hm : matchInside W cs with
      | some rem =>
        rw [bsub_cons_drop ho hm] at hx
        have hlt : rem.length < n := by
          rw [← hn]
          exact Nat.lt_succ_of_le (matchInside_rem_le hm)
        have := ih rem.length hlt rem rfl x hx
        obtain ⟨t, ht⟩ := matchInside_rem hm
        exact List.mem_cons_of_mem _ (by rw [← ht]; exact List.mem_append_right _ this)
      | none =>
        rw [bsub_cons_keep (Or.inr hm)] at hx
        rcases List.mem_cons.mp hx with h | h
        · exact h ▸ List.mem_cons_self _ _
        · exact List.mem_cons_of_mem _
            (ih cs.length (by rw [← hn]; exact Nat.lt_succ_self _) cs rfl x h)
    · have ho' : isOpen c = false := by simpa using ho
      rw [bsub_cons_keep (Or.inl ho')] at hx
      rcases List.mem_cons.mp hx with h | h
      · exact h ▸ List.mem_cons_self _ _
      · exact List.mem_cons_of_mem _
          (ih cs.length (by rw [← hn]; exact Nat.lt_succ_self _) cs rfl x h)

theorem bMatchable_nil {W : List PyStr} : ¬ bMatchable W [] := by
  rintro ⟨a, wd, b, w, hsplit, -, -, -, c, hc, -⟩
  have hb : b = [] := by
    rcases List.append_eq_nil.mp hsplit with ⟨-, h2⟩
    exact (List.append_eq_nil.mp ((List.nil_append b) ▸ h2)).2
  exact absurd (hb ▸ hc) (List.not_mem_nil c)

/-- Transfer of a partially matched word with a later closing bracket
from the output of the bracket scan back to its input: either the same
configuration already occurs in the input, or the input has a full
match of the inside_brackets body. -/
theorem keyW {W : List PyStr} :
    ∀ n s, List.length s = n → ∀ ws : PyStr,
      (∀ d ∈ ws, d.toLower ≠ ')' ∧ d.toLower ≠ ']') →
      (∃ u v, u ++ v = bsub W s ∧ ciEq u ws ∧ ∃ c ∈ v, isClose c = true) →
      (∃ u' v', u' ++ v' = s ∧ ciEq u' ws ∧ ∃ c ∈ v', isClose c = true) ∨
        bMatchable W s := by
  intro n
  induction n using Nat.strong_induction_on with
  | _ n ih =>
  intro s hn ws hws hprem
  cases s with
  | nil =>
    obtain ⟨u, v, huv, hci, c, hc, hcl⟩ := hprem
    rw [bsub_nil] at huv
    obtain ⟨-, hv⟩ := List.append_eq_nil.mp huv
    subst hv; cases hc
  | cons c0 cs =>
    have hkeep : (isOpen c0 = false ∨ matchInside W cs = none) →
        (∃ u' v', u' ++ v' = c0 :: cs ∧ ciEq u' ws ∧ ∃ c ∈ v', isClose c = true) ∨
          bMatchable W (c0 :: cs) := by
      intro hk
      obtain ⟨u, v, huv, hci, hclv⟩ := hprem
      rw [bsub_cons_keep hk] at huv
      cases u with
      | nil =>
        have hws0 : ws = [] := ciEq_nil_left hci
        left
        refine ⟨[], c0 :: cs, by simp, by simp [hws0, ciEq], ?_⟩
        obtain ⟨c, hc, hcl⟩ := hclv
        have hv : v = c0 :: bsub W cs := by simpa using huv
        rcases List.mem_cons.mp (hv ▸ hc) with h | h
        · exact ⟨c, h ▸ List.mem_cons_self _ _, hcl⟩
        · exact ⟨c, List.mem_cons_of_mem _ (bsub_subset cs.length cs rfl c h), hcl⟩
      | cons c1 u₂ =>
        obtain ⟨ws1, ws₂, rfl, hlw, hci₂⟩ := ciEq_cons_ex hci
        have h1 : c1 = c0 ∧ u₂ ++ v = bsub W cs := by simpa using huv
        obtain ⟨rfl, huv₂⟩ := h1
        have hws₂ : ∀ d ∈ ws₂, d.toLower ≠ ')' ∧ d.toLower ≠ ']' :=
          fun d hd => hws d (List.mem_cons_of_mem _ hd)
        have hrec := ih cs.length (by rw [← hn]; exact Nat.lt_succ_self _) cs rfl
          ws₂ hws₂ ⟨u₂, v, huv₂, hci₂, hclv⟩
        rcases hrec with ⟨u', v', hs', hci', hcl'⟩ | hbm
        · left
          refine ⟨c1 :: u', v', by simp [hs'], ?_, hcl'⟩
          simp only [ciEq, List.map_cons, List.cons.injEq]
          exact ⟨hlw, hci'⟩
        · right
          have hc1 : isClose c1 = false := by
            cases hcb : isClose c1 with
            | false => rfl
            | true =>
              exfalso
              have he : c1.toLower = c1 := isClose_toLower hcb
              have hws1 := hws ws1 (List.mem_cons_self _ _)
              have hor : c1 = ')' ∨ c1 = ']' := by
                simpa [isClose, or_iff_not_imp_left] using hcb
              rcases hor with h | h
              · exact hws1.1 (by rw [← hlw, he, h])
              · exact hws1.2 (by rw [← hlw, he, h])
          exact bMatchable_cons hc1 hbm
    by_cases ho : isOpen c0 = true
    · cases hm : matchInside W cs with
      | some rem =>
        right
        obtain ⟨a, wd, b, w, hsplit, ha, hw, hci, hcl⟩ := matchInside_some hm
        refine ⟨c0 :: a, wd, b, w, by simp [hsplit], ?_, hw, hci, hcl⟩
        intro x hx
        rcases List.mem_cons.mp hx with h | h
        · exact h ▸ isOpen_isClose_false ho
        · exact ha x h
      | none => exact hkeep (Or.inr hm)
    · exact hkeep (Or.inl (by simpa using ho))

/-- A match of the inside_brackets body on the output of the bracket
scan yields a match on its input. -/
theorem keyB {W : List PyStr} (hcf : closeFree W) (hne : ∀ w ∈ W, w ≠ []) :
    ∀ n s, List.length s = n → bMatchable W (bsub W s) → bMatchable W s := by
  intro n
  induction n using Nat.strong_induction_on with
  | _ n ih =>
  intro s hn hbm
  cases s with
  | nil => rw [bsub_nil] at hbm; exact absurd hbm bMatchable_nil
  | cons c0 cs =>
    have hkeep : (isOpen c0 = false ∨ matchInside W cs = none) →
        bMatchable W (c0 :: cs) := by
      intro hk
      rw [bsub_cons_keep hk] at hbm
      obtain ⟨a, wd, b, w, hsplit, ha, hw, hci, hclv⟩ := hbm
      cases a with
      | cons a1 a₂ =>
        have h1 : a1 = c0 ∧ a₂ ++ wd ++ b = bsub W cs := by
          simpa using hsplit
        obtain ⟨rfl, hsplit₂⟩ := h1
        have hbmcs : bMatchable W (bsub W cs) := ⟨a₂, wd, b, w, hsplit₂,
          fun x hx => ha x (List.mem_cons_of_mem _ hx), hw, hci, hclv⟩
        exact bMatchable_cons (ha a1 (List.mem_cons_self _ _))
          (ih cs.length (by rw [← hn]; exact Nat.lt_succ_self _) cs rfl hbmcs)
      | nil =>
        cases wd with
        | nil =>
          exact absurd (ciEq_nil_left hci) (hne w hw)
        | cons wc wd₂ =>
          obtain ⟨w1, w₂, rfl, hlw, hci₂⟩ := ciEq_cons_ex hci
          have h1 : wc = c0 ∧ wd₂ ++ b = bsub W cs := by simpa using hsplit
          obtain ⟨rfl, huv₂⟩ := h1
          have hws₂ : ∀ d ∈ w₂, d.toLower ≠ ')' ∧ d.toLower ≠ ']' :=
            fun d hd => hcf _ hw d (List.mem_cons_of_mem _ hd)
          have hrec := keyW cs.length cs rfl w₂ hws₂ ⟨wd₂, b, huv₂, hci₂, hclv⟩
          have hwcnc : isClose wc = false := by
            cases hcb : isClose wc with
            | false => rfl
            | true =>
              exfalso
              have he : wc.toLower = wc := isClose_toLower hcb
              have hw1 := hcf _ hw w1 (List.mem_cons_self _ _)
              have hor : wc = ')' ∨ wc = ']' := by
                simpa [isClose, or_iff_not_imp_left] using hcb
              rcases hor with h | h
              · exact hw1.1 (by rw [← hlw, he, h])
              · exact hw1.2 (by rw [← hlw, he, h])
          rcases hrec with ⟨u', v', hs', hci', hcl'⟩ | hbmcs
          · refine ⟨[], wc :: u', v', w1 :: w₂, by simp [hs'], by simp, hw, ?_, hcl'⟩
            simp only [ciEq, List.map_cons, List.cons.injEq]
            exact ⟨hlw, hci'⟩
          · exact bMatchable_cons hwcnc hbmcs
    by_cases ho : isOpen c0 = true
    · cases hm : matchInside W cs with
      | some rem =>
        obtain ⟨a, wd, b, w, hsplit, ha, hw, hci, hcl⟩ := matchInside_some hm
        refine ⟨c0 :: a, wd, b, w, by simp [hsplit], ?_, hw, hci, hcl⟩
        intro x hx
        rcases List.mem_cons.mp hx with h | h
        · exact h ▸ isOpen_isClose_false ho
        · exact ha x h
      | none => exact hkeep (Or.inr hm)
    · exact hkeep (Or.inl (by simpa using ho))

/-- The output of the bracket scan contains no match of inside_brackets:
no opening bracket in it is followed by a matchable tail. -/
theorem bsub_noMatch {W : List PyStr} (hcf : closeFree W) (hne : ∀ w ∈ W, w ≠ []) :
    ∀ n s, List.length s = n →
      ∀ u o v, u ++ o :: v = bsub W s → isOpen o = true → ¬ bMatchable W v := by
  intro n
  induction n using Nat.strong_induction_on with
  | _ n ih =>
  intro s hn u o v huv hop hbm
  cases s with
  | nil =>
    rw [bsub_nil] at huv
    obtain ⟨-, hv⟩ := List.append_eq_nil.mp huv
    cases hv
  | cons c0 cs =>
    by_cases ho : isOpen c0 = true
    · cases hm : matchInside W cs with
      | some rem =>
        rw [bsub_cons_drop ho hm] at huv
        have hlt : rem.length < n := by
          rw [← hn]; exact Nat.lt_succ_of_le (matchInside_rem_le hm)
        exact ih rem.length hlt rem rfl u o v huv hop hbm
      | none =>
        rw [bsub_cons_keep (Or.inr hm)] at huv
        cases u with
        | nil =>
          have h1 : o = c0 ∧ v = bsub W cs := by simpa using huv
          obtain ⟨rfl, rfl⟩ := h1
          have hbmcs : bMatchable W cs :=
            keyB hcf hne cs.length cs rfl hbm
          have := bMatchable_isSome hcf hbmcs
          rw [hm] at this
          cases this
        | cons u1 u₂ =>
          have h1 : u1 = c0 ∧ u₂ ++ o :: v = bsub W cs := by simpa using huv
          exact ih cs.length (by rw [← hn]; exact Nat.lt_succ_self _) cs rfl
            u₂ o v h1.2 hop hbm
    · rw [bsub_cons_keep (Or.inl (by simpa using ho))] at huv
      cases u with
      | nil =>
        have h1 : o = c0 ∧ v = bsub W cs := by simpa using huv
        exact absurd (h1.1 ▸ hop) (by simp [*])
      | cons u1 u₂ =>
        have h1 : u1 = c0 ∧ u₂ ++ o :: v = bsub W cs := by simpa using huv
        exact ih cs.length (by rw [← hn]; exact Nat.lt_succ_self _) cs rfl
          u₂ o v h1.2 hop hbm

/-- If no opening bracket of s has a matchable tail, the bracket scan
leaves s unchanged. -/
theorem bsub_id {W : List PyStr} :
    ∀ n s, List.length s = n →
      (∀ u o v, u ++ o :: v = s → isOpen o = true → ¬ bMatchable W v) →
      bsub W s = s := by
  intro n
  induction n using Nat.strong_induction_on with
  | _ n ih =>
  intro s hn hno
  cases s with
  | nil => exact bsub_nil W
  | cons c0 cs =>
    have hlift : ∀ u o v, u ++ o :: v = cs → isOpen o = true → ¬ bMatchable W v := by
      intro u o v huv hop
      exact hno (c0 :: u) o v (by simp [huv]) hop
    by_cases ho : isOpen c0 = true
    · cases hm : matchInside W cs with
      | some rem =>
        exact absurd (matchInside_some hm) (hno [] c0 cs (by simp) ho)
      | none =>
        rw [bsub_cons_keep (Or.inr hm)]
        rw [ih cs.length (by rw [← hn]; exact Nat.lt_succ_self _) cs rfl hlift]
    · rw [bsub_cons_keep (Or.inl (by simpa using ho))]
      rw [ih cs.length (by rw [← hn]; exact Nat.lt_succ_self _) cs rfl hlift]

/-- On newline-free input the delimiter scan yields a front part of the
input: a match consumes everything to the end of the string. -/
theorem dsub_app_noNl {W : List PyStr} :
    ∀ n s, List.length s = n → '\n' ∉ s → ∃ t, dsub W s ++ t = s := by
  intro n
  induction n using Nat.strong_induction_on with
  | _ n ih =>
  intro s hn hnl
  cases s with
  | nil => exact ⟨[], rfl⟩
  | cons c0 cs =>
    have hnlcs : '\n' ∉ cs := fun h => hnl (List.mem_cons_of_mem _ h)
    by_cases hdC : isDelim c0 = true
    · cases hm : matchContent W cs with
      | some rem =>
        have hrem : rem = [] := matchContent_noNl hnlcs hm
        rw [dsub_cons_drop hdC hm, hrem, dsub_nil]
        exact ⟨c0 :: cs, rfl⟩
      | none =>
        obtain ⟨t, ht⟩ := ih cs.length (by rw [← hn]; exact Nat.lt_succ_self _)
          cs rfl hnlcs
        rw [dsub_cons_keep (Or.inr hm)]
        exact ⟨t, by simp [ht]⟩
    · obtain ⟨t, ht⟩ := ih cs.length (by rw [← hn]; exact Nat.lt_succ_self _)
        cs rfl hnlcs
      rw [dsub_cons_keep (Or.inl (by simpa using hdC))]
      exact ⟨t, by simp [ht]⟩

/-- On newline-free input the output of the delimiter scan contains no
match of after_delimiter: no delimiter in it has a matchable tail. -/
theorem dsub_noMatch {W : List PyStr} :
    ∀ n s, List.length s = n → '\n' ∉ s →
      ∀ u d v, u ++ d :: v = dsub W s → isDelim d = true → ¬ dMatchable W v := by
  intro n
  induction n using Nat.strong_induction_on with
  | _ n ih =>
  intro s hn hnl u d v huv hdp hdm
  cases s with
  | nil =>
    rw [dsub_nil] at huv
    obtain ⟨-, hv⟩ := List.append_eq_nil.mp huv
    cases hv
  | cons c0 cs =>
    have hnlcs : '\n' ∉ cs := fun h => hnl (List.mem_cons_of_mem _ h)
    by_cases hdC : isDelim c0 = true
    · cases hm : matchContent W cs with
      | some rem =>
        have hrem : rem = [] := matchContent_noNl hnlcs hm
        rw [dsub_cons_drop hdC hm, hrem, dsub_nil] at huv
        obtain ⟨-, hv⟩ := List.append_eq_nil.mp huv
        cases hv
      | none =>
        rw [dsub_cons_keep (Or.inr hm)] at huv
        cases u with
        | nil =>
          have h1 : d = c0 ∧ v = dsub W cs := by simpa using huv
          obtain ⟨rfl, rfl⟩ := h1
          obtain ⟨t, ht⟩ := dsub_app_noNl cs.length cs rfl hnlcs
          have hdmcs : dMatchable W cs := ht ▸ dMatchable_append hdm
          have := dMatchable_isSome hdmcs
          rw [hm] at this
          cases this
        | cons u1 u₂ =>
          have h1 : u1 = c0 ∧ u₂ ++ d :: v = dsub W cs := by simpa using huv
          exact ih cs.length (by rw [← hn]; exact Nat.lt_succ_self _) cs rfl
            hnlcs u₂ d v h1.2 hdp hdm
    · rw [dsub_cons_keep (Or.inl (by simpa using hdC))] at huv
      cases u with
      | nil =>
        have h1 : d = c0 ∧ v = dsub W cs := by simpa using huv
        exact absurd (h1.1 ▸ hdp) (by simp [*])
      | cons u1 u₂ =>
        have h1 : u1 = c0 ∧ u₂ ++ d :: v = dsub W cs := by simpa using huv
        exact ih cs.length (by rw [← hn]; exact Nat.lt_succ_self _) cs rfl
          hnlcs u₂ d v h1.2 hdp hdm

/-- If no delimiter of s has a matchable tail, the delimiter scan leaves
s unchanged. -/
theorem dsub_id {W : List PyStr} :
    ∀ n s, List.length s = n →
      (∀ u d v, u ++ d :: v = s → isDelim d = true → ¬ dMatchable W v) →
      dsub W s = s := by
  intro n
  induction n using Nat.strong_induction_on with
  | _ n ih =>
  intro s hn hno
  cases s with
  | nil => exact dsub_nil W
  | cons c0 cs =>
    have hlift : ∀ u d v, u ++ d :: v = cs → isDelim d = true → ¬ dMatchable W v := by
      intro u d v huv hdp
      exact hno (c0 :: u) d v (by simp [huv]) hdp
    by_cases hdC : isDelim c0 = true
    · cases hm : matchContent W cs with
      | some rem =>
        exact absurd (matchContent_some hm) (hno [] c0 cs (by simp) hdC)
      | none =>
        rw [dsub_cons_keep (Or.inr hm)]
        rw [ih cs.length (by rw [← hn]; exact Nat.lt_succ_self _) cs rfl hlift]
    · rw [dsub_cons_keep (Or.inl (by simpa using hdC))]
      rw [ih cs.length (by rw [← hn]; exact Nat.lt_succ_self _) cs rfl hlift]

/-! Properties of str.strip. -/

theorem dropWhile_twice (p : Char → Bool) (l : List Char) :
    List.dropWhile p (List.dropWhile p l) = List.dropWhile p l := by
  induction l with
  | nil => rfl
  | cons c cs ih =>
    by_cases h : p c = true
    · simp [List.dropWhile_cons, h, ih]
    · simp [List.dropWhile_cons, h]

theorem dropWhile_head_false (p : Char → Bool) {l t : List Char} {c : Char}
    (h : List.dropWhile p l = l) (he : l = c :: t) : p c = false := by
  subst he
  cases hp : p c with
  | false => rfl
  | true =>
    exfalso
    rw [List.dropWhile_cons, hp, if_pos rfl] at h
    have h1 := congrArg List.length h
    have hle : (List.dropWhile p t).length ≤ t.length :=
      (List.dropWhile_suffix p).sublist.length_le
    simp only [List.length_cons] at h1
    omega

theorem pyStrip_app (s : PyStr) : ∃ t1 t2, t1 ++ (pyStrip s ++ t2) = s := by
  refine ⟨s.takeWhile pyIsSpace,
    ((s.dropWhile pyIsSpace).reverse.takeWhile pyIsSpace).reverse, ?_⟩
  have h2 : (s.dropWhile pyIsSpace).reverse.takeWhile pyIsSpace ++
      (s.dropWhile pyIsSpace).reverse.dropWhile pyIsSpace =
      (s.dropWhile pyIsSpace).reverse :=
    List.takeWhile_append_dropWhile pyIsSpace _
  have h3 : pyStrip s ++ ((s.dropWhile pyIsSpace).reverse.takeWhile pyIsSpace).reverse =
      s.dropWhile pyIsSpace := by
    have h2r := congrArg List.reverse h2
    rw [List.reverse_append, List.reverse_reverse] at h2r
    exact h2r
  rw [h3]
  exact List.takeWhile_append_dropWhile pyIsSpace s

theorem pyStrip_idem (s : PyStr) : pyStrip (pyStrip s) = pyStrip s := by
  have hA : List.dropWhile pyIsSpace (s.dropWhile pyIsSpace) = s.dropWhile pyIsSpace :=
    dropWhile_twice pyIsSpace s
  have h2 : (s.dropWhile pyIsSpace).reverse.takeWhile pyIsSpace ++
      (s.dropWhile pyIsSpace).reverse.dropWhile pyIsSpace =
      (s.dropWhile pyIsSpace).reverse :=
    List.takeWhile_append_dropWhile pyIsSpace _
  have h3 : pyStrip s ++ ((s.dropWhile pyIsSpace).reverse.takeWhile pyIsSpace).reverse =
      s.dropWhile pyIsSpace := by
    have h2r := congrArg List.reverse h2
    rw [List.reverse_append, List.reverse_reverse] at h2r
    exact h2r
  have hrevq : (pyStrip s).reverse = (s.dropWhile pyIsSpace).reverse.dropWhile pyIsSpace := by
    show ((((s.dropWhile pyIsSpace).reverse.dropWhile pyIsSpace)).reverse).reverse = _
    rw [List.reverse_reverse]
  have hrev : (pyStrip s).reverse.dropWhile pyIsSpace = (pyStrip s).reverse := by
    rw [hrevq, dropWhile_twice]
  have hfwd : (pyStrip s).dropWhile pyIsSpace = pyStrip s := by
    cases hq : pyStrip s with
    | nil => rfl
    | cons c q' =>
      have hcfalse : pyIsSpace c = false := by
        have h3' := h3
        rw [hq, List.cons_append] at h3'
        exact dropWhile_head_false pyIsSpace hA h3'.symm
      rw [List.dropWhile_cons, hcfalse]
      simp
  show pyStrip (pyStrip s) = pyStrip s
  rw [pyStrip, hfwd, hrev, List.reverse_reverse]

/-- Idempotence of the sanitizer on newline-free input, for any word
list whose words are nonempty and do not case-fold onto a closing
bracket. -/
theorem sanitize_idem_core {W : List PyStr} (hcf : closeFree W)
    (hne : ∀ w ∈ W, w ≠ []) (s : PyStr) (hnl : '\n' ∉ s) :
    sanitizeTitle W (sanitizeTitle W s) = sanitizeTitle W s := by
  have hnly : '\n' ∉ bsub W s :=
    fun h => hnl (bsub_subset s.length s rfl '\n' h)
  obtain ⟨t, ht⟩ := dsub_app_noNl (bsub W s).length (bsub W s) rfl hnly
  obtain ⟨t1, t2, hP⟩ := pyStrip_app (dsub W (bsub W s))
  have hbP : bsub W (sanitizeTitle W s) = sanitizeTitle W s := by
    apply bsub_id (sanitizeTitle W s).length _ rfl
    intro u o v huv hop hbm
    have huv' : u ++ o :: v = pyStrip (dsub W (bsub W s)) := huv
    refine bsub_noMatch hcf hne s.length s rfl (t1 ++ u) o (v ++ (t2 ++ t)) ?_ hop
      (bMatchable_append hbm)
    rw [← ht, ← hP, ← huv']
    simp
  have hdP : dsub W (sanitizeTitle W s) = sanitizeTitle W s := by
    apply dsub_id (sanitizeTitle W s).length _ rfl
    intro u d v huv hdp hdm
    have huv' : u ++ d :: v = pyStrip (dsub W (bsub W s)) := huv
    refine dsub_noMatch (bsub W s).length (bsub W s) rfl hnly (t1 ++ u) d (v ++ t2) ?_
      hdp (dMatchable_append hdm)
    rw [← hP, ← huv']
    simp
  have hsP : pyStrip (sanitizeTitle W s) = sanitizeTitle W s := pyStrip_idem _
  show pyStrip (dsub W (bsub W (sanitizeTitle W s))) = sanitizeTitle W s
  rw [hbP, hdP, hsP]

/-! Occurrence of a sanitize word in a string. -/

/-- Some sanitize word matches case-insensitively at the head of s. -/
def hasWordAt (W : List PyStr) (s : PyStr) : Bool :=
  W.any (fun w => (dropCI w s).isSome)

/-- Some sanitize word occurs case-insensitively anywhere in s. -/
def occursCI (W : List PyStr) : PyStr → Bool
  | [] => hasWordAt W []
  | c :: cs => hasWordAt W (c :: cs) || occursCI W cs

theorem occursCI_of_hasWordAt {W : List PyStr} :
    ∀ u v, hasWordAt W v = true → occursCI W (u ++ v) = true := by
  intro u
  induction u with
  | nil =>
    intro v hv
    cases v with
    | nil => exact hv
    | cons c cs => simp [occursCI, hv]
  | cons c u' ih =>
    intro v hv
    simp [occursCI, ih v hv]

theorem occursCI_append_right {W : List PyStr} :
    ∀ u v, occursCI W (u ++ v) = false → occursCI W v = false := by
  intro u
  induction u with
  | nil => exact fun v h => h
  | cons c u' ih =>
    intro v h
    simp only [List.cons_append, occursCI, Bool.or_eq_false_iff] at h
    exact ih v h.2

theorem occurs_of_split {W : List PyStr} {a wd b v w : PyStr}
    (hsplit : a ++ wd ++ b = v) (hw : w ∈ W) (hci : ciEq wd w) :
    occursCI W v = true := by
  have hword : hasWordAt W (wd ++ b) = true := by
    simp only [hasWordAt, List.any_eq_true]
    exact ⟨w, hw, by rw [dropCI_of_ciEq b hci]; rfl⟩
  rw [← hsplit, List.append_assoc]
  exact occursCI_of_hasWordAt a (wd ++ b) hword

theorem bM_occurs {W : List PyStr} {v : PyStr} (h : bMatchable W v) :
    occursCI W v = true := by
  obtain ⟨a, wd, b, w, hsplit, -, hw, hci, -⟩ := h
  exact occurs_of_split hsplit hw hci

theorem dM_occurs {W : List PyStr} {v : PyStr} (h : dMatchable W v) :
    occursCI W v = true := by
  obtain ⟨a, wd, b, w, hsplit, -, hw, hci⟩ := h
  exact occurs_of_split hsplit hw hci

/-- On a string in which no sanitize word occurs, both substitution
passes are the identity. -/
theorem sanitize_of_no_occ {W : List PyStr} (s : PyStr)
    (hocc : occursCI W s = false) : sanitizeTitle W s = pyStrip s := by
  have hb : bsub W s = s := by
    apply bsub_id s.length s rfl
    intro u o v huv hop hbm
    have h1 : occursCI W v = true := bM_occurs hbm
    have h2 : occursCI W v = false := by
      have := occursCI_append_right u (o :: v) (by rw [huv]; exact hocc)
      exact occursCI_append_right [o] v this
    rw [h1] at h2
    cases h2
  have hd : dsub W s = s := by
    apply dsub_id s.length s rfl
    intro u d v huv hdp hdm
    have h1 : occursCI W v = true := dM_occurs hdm
    have h2 : occursCI W v = false := by
      have := occursCI_append_right u (d :: v) (by rw [huv]; exact hocc)
      exact occursCI_append_right [d] v this
    rw [h1] at h2
    cases h2
  show pyStrip (dsub W (bsub W s)) = pyStrip s
  rw [hb, hd]

/-! Claim theorems about the sanitizer. -/

/-- C1 counterexample: Sanitize is not idempotent.  On the input
"(a -]edit-\ndemo\n)" with the default sanitize words, one application
yields "(a \ndemo\n)" (the delimiter pass removes "-]edit-", bringing
"demo" between the brackets), and a second application then matches the
bracket pattern and yields the empty string. -/
theorem sanitize_not_idempotent_counterexample :
    sanitizeTitle defaultWords
        (sanitizeTitle defaultWords ("(a -]edit-\ndemo\n)".toList)) ≠
      sanitizeTitle defaultWords ("(a -]edit-\ndemo\n)".toList) := by
  decide

/-- C1 (amended): Sanitize is idempotent on every string that contains
no newline character: applying the sanitizer (bracket pattern, then
trailing-delimiter pattern, then strip) twice equals applying it once.
With the default sanitize words compiled, a counterexample exists only
through the interaction of a newline with the dot-star of the
trailing-delimiter pattern. -/
theorem sanitize_idempotent_of_no_newline (s : PyStr) (hnl : '\n' ∉ s) :
    sanitizeTitle defaultWords (sanitizeTitle defaultWords s) =
      sanitizeTitle defaultWords s :=
  sanitize_idem_core (by unfold closeFree; decide) (by decide) s hnl

/-- Witness for the amended C1 theorem at a concrete input. -/
theorem sanitize_idempotent_of_no_newline_witness :
    '\n' ∉ ("Song (demo) - edit x".toList) ∧
      sanitizeTitle defaultWords
          (sanitizeTitle defaultWords ("Song (demo) - edit x".toList)) =
        sanitizeTitle defaultWords ("Song (demo) - edit x".toList) :=
  ⟨by decide, sanitize_idempotent_of_no_newline _ (by decide)⟩

/-- C7: the sanitize words match case-insensitively.  With the default
configured list (which contains "remaster"), both "Remastered" and
"REMASTERED" are stripped, in a bracketed segment and in a trailing
delimiter segment. -/
theorem sanitize_case_insensitive_examples :
    sanitizeTitle defaultWords
        ("Never Gonna Give You Up (Remastered 2017)".toList) =
      ("Never Gonna Give You Up".toList) ∧
    sanitizeTitle defaultWords
        ("Never Gonna Give You Up (REMASTERED 2017)".toList) =
      ("Never Gonna Give You Up".toList) ∧
    sanitizeTitle defaultWords ("Song - Remastered".toList) = ("Song".toList) ∧
    sanitizeTitle defaultWords ("Song - REMASTERED".toList) = ("Song".toList) := by
  refine ⟨by decide, by decide, by decide, by decide⟩

/-- C8: on any input in which no configured sanitize word occurs
case-insensitively, the sanitizer only strips surrounding whitespace. -/
theorem sanitize_unchanged_of_no_occurrence {W : List PyStr} (s : PyStr)
    (hocc : occursCI W s = false) : sanitizeTitle W s = pyStrip s :=
  sanitize_of_no_occ s hocc

/-- Witness for the C8 theorem at a concrete input. -/
theorem sanitize_unchanged_of_no_occurrence_witness :
    occursCI defaultWords ("Hello World".toList) = false ∧
      sanitizeTitle defaultWords ("Hello World".toList) =
        pyStrip ("Hello World".toList) :=
  ⟨by decide, sanitize_unchanged_of_no_occurrence _ (by decide)⟩

/-! The duration text: str(timedelta(microseconds=m))[:-7]. -/

/-- Decimal digit character. -/
def digitChar (n : Nat) : Char := Char.ofNat (48 + n)

/-- Fueled decimal printing of a natural number (most significant digit
first); fuel n + 1 always suffices. -/
def natToCharsAux : Nat → Nat → List Char
  | 0, _ => []
  | fuel + 1, n =>
    if n < 10 then [digitChar n]
    else natToCharsAux fuel (n / 10) ++ [digitChar (n % 10)]

/-- Python str of a natural number. -/
def natToChars (n : Nat) : List Char := natToCharsAux (n + 1) n

/-- Python "%02d". -/
def pad2 (n : Nat) : List Char :=
  if n < 10 then '0' :: natToChars n else natToChars n

/-- Python "%06d". -/
def pad6 (n : Nat) : List Char :=
  List.replicate (6 - (natToChars n).length) '0' ++ natToChars n

/-- Python str(timedelta(microseconds=m)) for a non-negative number of
microseconds: "[D day(s), ]H:MM:SS[.ffffff]", where the fractional part
is present exactly when the microsecond remainder is non-zero. -/
def pyTimedeltaStr (m : Nat) : PyStr :=
  (if m / 86400000000 = 0 then []
   else natToChars (m / 86400000000) ++
     (if m / 86400000000 = 1 then " day, ".toList else " days, ".toList)) ++
  natToChars (m % 86400000000 / 1000000 / 3600) ++
  ':' :: pad2 (m % 86400000000 / 1000000 % 3600 / 60) ++
  ':' :: pad2 (m % 86400000000 / 1000000 % 60) ++
  (if m % 1000000 = 0 then [] else '.' :: pad6 (m % 1000000))

/-- The module's rtime computation: str(timedelta(microseconds=m))[:-7],
the Python slice dropping the last seven characters (everything when
the string is at most seven characters long). -/
def timeText (m : Nat) : PyStr :=
  (pyTimedeltaStr m).take ((pyTimedeltaStr m).length - 7)

/-- C3: the spec says a duration of 125,000,000 microseconds renders as
"0:02:05"; the code computes str(timedelta(microseconds=125000000)) =
"0:02:05" and then slices off the last seven characters, which on this
whole-second duration deletes the entire text and renders the time
placeholder as the empty string. -/
theorem duration_slice_bug :
    pyTimedeltaStr 125000000 = ("0:02:05".toList) ∧ timeText 125000000 = [] := by
  refine ⟨by decide, by decide⟩

/-- On a duration with a fractional-second remainder the slice removes
exactly the ".ffffff" suffix, which is the intent of the code. -/
theorem duration_slice_fractional_ok :
    pyTimedeltaStr 125000001 = ("0:02:05.000001".toList) ∧
      timeText 125000001 = ("0:02:05".toList) := by
  refine ⟨by decide, by decide⟩

/-! The poll: Py3status._get_text over an abstract bus environment. -/

/-- The six colors visible to the module; a color may be unset. -/
structure Colors where
  playing : Option PyStr
  paused : Option PyStr
  offline : Option PyStr
  good : Option PyStr
  degraded : Option PyStr
  bad : Option PyStr

/-- The module's configuration parameters used by _get_text. -/
structure Config where
  format : PyStr
  format_down : PyStr
  format_stopped : PyStr
  sanitize_titles : Bool
  sanitize_words : List PyStr

/-- The class-level defaults of the module. -/
def defaultConfig : Config :=
  ⟨"{artist} : {title}".toList, "MellowPlayer not running".toList,
   "MellowPlayer stopped".toList, true, defaultWords⟩

/-- The Metadata property: a key-value map; each field of interest may
be absent (dict.get returns None). -/
structure Metadata where
  album : Option PyStr
  artist : Option (List PyStr)
  tracklen : Option Nat
  title : Option PyStr

/-- One poll's view of the bus: whether the player object can be
reached, and the results of the two property reads (none models a read
that raises). -/
structure DBusEnv where
  reachable : Bool
  metadata : Option Metadata
  playbackStatus : Option PyStr

/-- Modelled from the spec: py3.safe_format is py3status framework code
that is not under src; per the spec, substituting a placeholder whose
field is missing or null yields an empty substitution and never raises.
The renderer scans for "{name}" groups and substitutes the field value,
the empty string for a null value, and leaves an unknown or unopened
group as literal text. -/
def renderField (fields : List (PyStr × Option PyStr)) (name : PyStr) : PyStr :=
  match fields.lookup name with
  | some (some v) => v
  | some none => []
  | none => '{' :: (name ++ ['}'])

/-- Modelled from the spec: the scan of the format string; a "{name}"
group is substituted through renderField, a "{" without a later "}"
stays literal. -/
def safeFormatF (fields : List (PyStr × Option PyStr)) : Nat → PyStr → PyStr
  | 0, s => s
  | _ + 1, [] => []
  | fuel + 1, c :: cs =>
    if c = '{' then
      match cs.dropWhile (fun x => x ≠ '}') with
      | [] => c :: safeFormatF fields fuel cs
      | _ :: rest =>
        renderField fields (cs.takeWhile (fun x => x ≠ '}')) ++
          safeFormatF fields fuel rest
    else c :: safeFormatF fields fuel cs

/-- Modelled from the spec: the placeholder renderer at full fuel. -/
def safeFormat (fmt : PyStr) (fields : List (PyStr × Option PyStr)) : PyStr :=
  safeFormatF fields fmt.length fmt

/-- The expected playback status value. -/
def playingStr : PyStr := "Playing".toList

/-- The sanitize step of _get_text: with sanitize_titles set, both album
and title are passed through _sanitize_title, which raises on a null
value; with the flag unset both are passed on unchanged. -/
def sanitizePair (cfg : Config) (md : Metadata) :
    Option (Option PyStr × Option PyStr) :=
  if cfg.sanitize_titles then
    match md.album, md.title with
    | some a, some t =>
      some (some (sanitizeTitle cfg.sanitize_words a),
        some (sanitizeTitle cfg.sanitize_words t))
    | _, _ => none
  else some (md.album, md.title)

/-- The inner try block of _get_text: read Metadata, take album, first
artist, duration and title, sanitize, read PlaybackStatus and select
the color.  A none result models an exception caught by the inner
handler. -/
def innerBlock (cfg : Config) (col : Colors) (env : DBusEnv) :
    Option (List (PyStr × Option PyStr) × Option PyStr) :=
  match env.metadata with
  | none => none
  | some md =>
    match md.artist with
    | none => none
    | some artists =>
      match artists.head? with
      | none => none
      | some artist =>
        match md.tracklen with
        | none => none
        | some micro =>
          match sanitizePair cfg md with
          | none => none
          | some (album1, title1) =>
            match env.playbackStatus with
            | none => none
            | some st =>
              some ([("title".toList, title1), ("artist".toList, some artist),
                     ("album".toList, album1), ("time".toList, some (timeText micro))],
                if pyStrip st = playingStr then col.playing <|> col.good
                else col.paused <|> col.degraded)

/-- Py3status._get_text: the outer try reaches the player object (and
also wraps the final safe_format call); its handler returns the down
text with the offline color.  The inner handler returns the stopped
text with the paused color. -/
def getText (cfg : Config) (col : Colors) (env : DBusEnv) : PyStr × Option PyStr :=
  if env.reachable then
    match innerBlock cfg col env with
    | none => (cfg.format_stopped, col.paused <|> col.degraded)
    | some (fields, color) => (safeFormat cfg.format fields, color)
  else (cfg.format_down, col.offline <|> col.bad)

/-- Replace the playback status read of an environment. -/
def withStatus (env : DBusEnv) (st : PyStr) : DBusEnv :=
  ⟨env.reachable, env.metadata, some st⟩

/-- Inversion of a successful inner block: all reads succeeded, the
fields are built from the metadata alone, and the color is selected
from the stripped playback status. -/
theorem innerBlock_some_inv {cfg : Config} {col : Colors} {env : DBusEnv}
    {flds : List (PyStr × Option PyStr)} {c : Option PyStr}
    (h : innerBlock cfg col env = some (flds, c)) :
    ∃ md artists artist micro album1 title1 st,
      env.metadata = some md ∧ md.artist = some artists ∧
      artists.head? = some artist ∧ md.tracklen = some micro ∧
      sanitizePair cfg md = some (album1, title1) ∧
      env.playbackStatus = some st ∧
      flds = [("title".toList, title1), ("artist".toList, some artist),
              ("album".toList, album1), ("time".toList, some (timeText micro))] ∧
      c = (if pyStrip st = playingStr then col.playing <|> col.good
           else col.paused <|> col.degraded) := by
  simp only [innerBlock] at h
  cases hmd : env.metadata with
  | none => rw [hmd] at h; cases h
  | some md =>
  rw [hmd] at h
  cases hart : md.artist with
  | none => simp only [hart] at h; cases h
  | some artists =>
  simp only [hart] at h
  cases hhd : artists.head? with
  | none => simp only [hhd] at h; cases h
  | some artist =>
  simp only [hhd] at h
  cases hlen : md.tracklen with
  | none => simp only [hlen] at h; cases h
  | some micro =>
  simp only [hlen] at h
  cases hsan : sanitizePair cfg md with
  | none => simp only [hsan] at h; cases h
  | some p =>
  obtain ⟨album1, title1⟩ := p
  simp only [hsan] at h
  cases hst : env.playbackStatus with
  | none => simp only [hst] at h; cases h
  | some st =>
  simp only [hst, Option.some.injEq, Prod.mk.injEq] at h
  exact ⟨md, artists, artist, micro, album1, title1, st, rfl, hart, hhd, hlen,
    hsan, rfl, h.1.symm, h.2.symm⟩

theorem getText_unreachable {cfg : Config} {col : Colors} {env : DBusEnv}
    (hr : env.reachable = false) :
    getText cfg col env = (cfg.format_down, col.offline <|> col.bad) := by
  simp [getText, hr]

theorem getText_inner_none {cfg : Config} {col : Colors} {env : DBusEnv}
    (hr : env.reachable = true) (hib : innerBlock cfg col env = none) :
    getText cfg col env = (cfg.format_stopped, col.paused <|> col.degraded) := by
  simp [getText, hr, hib]

theorem getText_inner_some {cfg : Config} {col : Colors} {env : DBusEnv}
    {flds : List (PyStr × Option PyStr)} {c : Option PyStr}
    (hr : env.reachable = true) (hib : innerBlock cfg col env = some (flds, c)) :
    getText cfg col env = (safeFormat cfg.format flds, c) := by
  simp [getText, hr, hib]

/-- C2: the error tiers of _get_text.  Poll returns the down text with
the offline color exactly on the branch where reaching the player
object failed; once the object is reached, a failure of the inner block
(property reads and field extraction) yields the stopped text with the
paused color, and a successful inner block yields the rendered template
with the selected color.  Template rendering is modelled from the spec
as total (safe_format never raises), so no later error can fall back to
the outer handler. -/
theorem poll_error_tiers (cfg : Config) (col : Colors) (env : DBusEnv) :
    (env.reachable = false →
      getText cfg col env = (cfg.format_down, col.offline <|> col.bad)) ∧
    (env.reachable = true → innerBlock cfg col env = none →
      getText cfg col env = (cfg.format_stopped, col.paused <|> col.degraded)) ∧
    (env.reachable = true → ∀ flds c, innerBlock cfg col env = some (flds, c) →
      getText cfg col env = (safeFormat cfg.format flds, c)) := by
  refine ⟨fun hr => getText_unreachable hr, fun hr hib => getText_inner_none hr hib,
    fun hr flds c hib => getText_inner_some hr hib⟩

/-- Sample colors for the witnesses. -/
def sampleColors : Colors :=
  ⟨some ("#00FF00".toList), some ("#FFFF00".toList), some ("#FF0000".toList),
   none, none, none⟩

/-- Environment of a poll on which the player object is unreachable. -/
def envDown : DBusEnv := ⟨false, none, none⟩

/-- Environment of a poll on which the object is reachable but the
Metadata read raises. -/
def envStopped : DBusEnv := ⟨true, none, none⟩

/-- A complete metadata map. -/
def sampleMeta : Metadata :=
  ⟨some ("Whenever You Need Somebody".toList), some [("Rick Astley".toList)],
   some 125500000, some ("Never Gonna Give You Up".toList)⟩

/-- Environment of a successful poll with status "Playing". -/
def envPlaying : DBusEnv := ⟨true, some sampleMeta, some ("Playing".toList)⟩

/-- Witness for the C2 theorem at concrete environments. -/
theorem poll_error_tiers_witness :
    getText defaultConfig sampleColors envDown =
      (defaultConfig.format_down, sampleColors.offline <|> sampleColors.bad) ∧
    getText defaultConfig sampleColors envStopped =
      (defaultConfig.format_stopped, sampleColors.paused <|> sampleColors.degraded) :=
  ⟨(poll_error_tiers defaultConfig sampleColors envDown).1 rfl,
   (poll_error_tiers defaultConfig sampleColors envStopped).2.1 rfl rfl⟩

/-- C4: if the player object is reachable but the Metadata read raises,
an expected field is missing (no artist list or an empty one, no track
length, or - with sanitizing enabled - no album or title to sanitize),
or the PlaybackStatus read raises, the poll returns the stopped text
with the paused color. -/
theorem poll_stopped_on_read_failure (cfg : Config) (col : Colors) (env : DBusEnv)
    (hr : env.reachable = true)
    (hfail : env.metadata = none ∨
      (∃ md, env.metadata = some md ∧
        (md.artist = none ∨ md.artist = some [] ∨ md.tracklen = none ∨
          (cfg.sanitize_titles = true ∧ (md.album = none ∨ md.title = none)))) ∨
      env.playbackStatus = none) :
    getText cfg col env = (cfg.format_stopped, col.paused <|> col.degraded) := by
  have hib : innerBlock cfg col env = none := by
    rcases hfail with h | ⟨md, hmd, hcase⟩ | h
    · simp [innerBlock, h]
    · rcases hcase with ha | ha | ha | ⟨hf, ha⟩
      · simp [innerBlock, hmd, ha]
      · simp [innerBlock, hmd, ha]
      · cases hart : md.artist with
        | none => simp [innerBlock, hmd, hart]
        | some artists =>
          cases hhd : artists.head? with
          | none => simp [innerBlock, hmd, hart, hhd]
          | some artist => simp [innerBlock, hmd, hart, hhd, ha]
      · cases hart : md.artist with
        | none => simp [innerBlock, hmd, hart]
        | some artists =>
          cases hhd : artists.head? with
          | none => simp [innerBlock, hmd, hart, hhd]
          | some artist =>
            cases hlen : md.tracklen with
            | none => simp [innerBlock, hmd, hart, hhd, hlen]
            | some micro =>
              have hsan : sanitizePair cfg md = none := by
                rcases ha with ha | ha
                · cases htl : md.title <;> simp [sanitizePair, hf, ha, htl]
                · cases halb : md.album <;> simp [sanitizePair, hf, ha, halb]
              simp [innerBlock, hmd, hart, hhd, hlen, hsan]
    · cases hmd : env.metadata with
      | none => simp [innerBlock, hmd]
      | some md =>
        cases hart : md.artist with
        | none => simp [innerBlock, hmd, hart]
        | some artists =>
          cases hhd : artists.head? with
          | none => simp [innerBlock, hmd, hart, hhd]
          | some artist =>
            cases hlen : md.tracklen with
            | none => simp [innerBlock, hmd, hart, hhd, hlen]
            | some micro =>
              cases hsan : sanitizePair cfg md with
              | none => simp [innerBlock, hmd, hart, hhd, hlen, hsan]
              | some p =>
                obtain ⟨album1, title1⟩ := p
                simp [innerBlock, hmd, hart, hhd, hlen, hsan, h]
  simp [getText, hr, hib]

/-- Witness for the C4 theorem at a concrete environment with a missing
artist list. -/
theorem poll_stopped_on_read_failure_witness :
    getText defaultConfig sampleColors
        ⟨true, some ⟨some ("A".toList), none, some 1, some ("T".toList)⟩,
          some ("Playing".toList)⟩ =
      (defaultConfig.format_stopped,
        sampleColors.paused <|> sampleColors.degraded) :=
  poll_stopped_on_read_failure defaultConfig sampleColors _ rfl
    (Or.inr (Or.inl ⟨_, rfl, Or.inl rfl⟩))

/-- C5: on a successful poll the returned color is the playing color
exactly when the playback status, stripped of surrounding whitespace,
equals "Playing" with an exact case-sensitive comparison; every other
status selects the paused color. -/
theorem poll_color_playing_iff (cfg : Config) (col : Colors) (env : DBusEnv)
    (st : PyStr) (hr : env.reachable = true) (hst : env.playbackStatus = some st)
    (hsome : (innerBlock cfg col env).isSome = true) :
    (getText cfg col env).2 =
      (if pyStrip st = playingStr then col.playing <|> col.good
       else col.paused <|> col.degraded) := by
  cases hib : innerBlock cfg col env with
  | none => rw [hib] at hsome; cases hsome
  | some p =>
    obtain ⟨flds, c⟩ := p
    obtain ⟨md, artists, artist, micro, album1, title1, st', -, -, -, -, -, hst',
      -, hc⟩ := innerBlock_some_inv hib
    obtain rfl : st' = st := by rw [hst] at hst'; cases hst'; rfl
    rw [getText_inner_some hr hib, hc]

/-- Witness for the C5 theorem at a concrete playing environment. -/
theorem poll_color_playing_iff_witness :
    (getText defaultConfig sampleColors envPlaying).2 = sampleColors.playing := by
  rw [poll_color_playing_iff defaultConfig sampleColors envPlaying
    ("Playing".toList) rfl rfl (by decide)]
  decide

/-- C10: whenever the inner block succeeds, the returned text is the
rendered template over the track's fields; replacing the playback
status by any other value leaves the inner block successful with the
same fields and changes only the selected color, so a non-"Playing"
status never changes the returned text, and in particular never
produces the stopped text. -/
theorem poll_text_independent_of_status (cfg : Config) (col : Colors)
    (env : DBusEnv) (st' : PyStr) (hr : env.reachable = true)
    (hsome : (innerBlock cfg col env).isSome = true) :
    (∀ flds c, innerBlock cfg col env = some (flds, c) →
      (getText cfg col env).1 = safeFormat cfg.format flds ∧
      innerBlock cfg col (withStatus env st') =
        some (flds, if pyStrip st' = playingStr then col.playing <|> col.good
                    else col.paused <|> col.degraded)) ∧
    (getText cfg col (withStatus env st')).1 = (getText cfg col env).1 := by
  have hmain : ∀ flds c, innerBlock cfg col env = some (flds, c) →
      (getText cfg col env).1 = safeFormat cfg.format flds ∧
      innerBlock cfg col (withStatus env st') =
        some (flds, if pyStrip st' = playingStr then col.playing <|> col.good
                    else col.paused <|> col.degraded) := by
    intro flds c hib
    obtain ⟨md, artists, artist, micro, album1, title1, st, hmd, hart, hhd, hlen,
      hsan, hst, hflds, hc⟩ := innerBlock_some_inv hib
    constructor
    · rw [getText_inner_some hr hib]
    · subst hflds
      simp [innerBlock, withStatus, hmd, hart, hhd, hlen, hsan]
  refine ⟨hmain, ?_⟩
  cases hib : innerBlock cfg col env with
  | none => rw [hib] at hsome; cases hsome
  | some p =>
    obtain ⟨flds, c⟩ := p
    obtain ⟨h1, h2⟩ := hmain flds c hib
    have hr' : (withStatus env st').reachable = true := hr
    rw [getText_inner_some hr' h2]
    exact h1.symm

/-- Witness for the C10 theorem: switching the sample environment from
"Playing" to "Paused" leaves the rendered text unchanged. -/
theorem poll_text_independent_of_status_witness :
    (getText defaultConfig sampleColors
        (withStatus envPlaying ("Paused".toList))).1 =
      (getText defaultConfig sampleColors envPlaying).1 :=
  (poll_text_independent_of_status defaultConfig sampleColors envPlaying
    ("Paused".toList) rfl (by decide)).2

theorem renderField_none_eq_empty (fields : List (PyStr × Option PyStr))
    (name nm : PyStr) :
    renderField ((name, none) :: fields) nm =
      renderField ((name, some []) :: fields) nm := by
  simp only [renderField, List.lookup]
  cases hkey : nm == name <;> simp [hkey]

/-- C6: a template placeholder whose field carries a null value renders
exactly as the empty string: substituting none for a field is the same
as substituting the empty text, and the renderer is a total function,
so a missing or null value never raises.  The renderer is modelled from
the spec, since py3.safe_format is framework code outside src.  The
second conjunct shows a concrete template with a null title rendering
with an empty substitution. -/
theorem render_null_field_as_empty :
    (∀ fmt (fields : List (PyStr × Option PyStr)) (name : PyStr),
      safeFormat fmt ((name, none) :: fields) =
        safeFormat fmt ((name, some []) :: fields)) ∧
    safeFormat ("{artist} : {title}".toList)
        [("artist".toList, some ("Rick Astley".toList)), ("title".toList, none)] =
      ("Rick Astley : ".toList) := by
  constructor
  · intro fmt fields name
    show safeFormatF _ fmt.length fmt = safeFormatF _ fmt.length fmt
    generalize fmt.length = fuel
    induction fuel generalizing fmt with
    | zero => rfl
    | succ fuel ih =>
      cases fmt with
      | nil => rfl
      | cons c cs =>
        by_cases hc : c = '{'
        · subst hc
          simp only [safeFormatF, if_pos rfl]
          cases hdrop : cs.dropWhile (fun x => x ≠ '}') with
          | nil =>
            show '{' :: safeFormatF ((name, none) :: fields) fuel cs =
              '{' :: safeFormatF ((name, some []) :: fields) fuel cs
            rw [ih cs]
          | cons c2 rest =>
            show renderField ((name, none) :: fields)
                  (List.takeWhile (fun x => x ≠ '}') cs) ++
                safeFormatF ((name, none) :: fields) fuel rest =
              renderField ((name, some []) :: fields)
                  (List.takeWhile (fun x => x ≠ '}') cs) ++
                safeFormatF ((name, some []) :: fields) fuel rest
            rw [renderField_none_eq_empty, ih rest]
        · simp only [safeFormatF, if_neg hc]
          rw [ih cs]
  · decide

/-! Pattern compilation: _compile_re builds the expression text from
the configured words and hands it to re.compile; compilation succeeds
exactly when the resulting text is a well-formed pattern. -/

/-- Python "|".join over the word list. -/
def joinBar : List PyStr → PyStr
  | [] => []
  | [w] => w
  | w :: ws => w ++ '|' :: joinBar ws

/-- The placeholder replaced by _compile_re. -/
def metaMarker : PyStr := "META_WORDS_HERE".toList

/-- Python str.replace of the marker, scanning left to right. -/
def replaceMarkerF (meta : PyStr) : Nat → PyStr → PyStr
  | 0, s => s
  | fuel + 1, s =>
    if s.take 15 = metaMarker then meta ++ replaceMarkerF meta fuel (s.drop 15)
    else
      match s with
      | [] => []
      | c :: cs => c :: replaceMarkerF meta fuel cs

/-- The expression template with the marker replaced by the joined
words. -/
def buildExpr (template : PyStr) (W : List PyStr) : PyStr :=
  replaceMarkerF (joinBar W) template.length template

/-- The after_delimiter template of post_config_hook. -/
def templateAfter : PyStr := "([\\-,;/])([^\\-,;/])*(META_WORDS_HERE).*".toList

/-- The inside_brackets template of post_config_hook. -/
def templateInside : PyStr :=
  "([\\(\\[][^)\\]]*?(META_WORDS_HERE)[^)\\]]*?[\\)\\]])".toList

def afterDelimiterExpr (W : List PyStr) : PyStr := buildExpr templateAfter W

def insideBracketsExpr (W : List PyStr) : PyStr := buildExpr templateInside W

/-- Quantifier characters. -/
def isQuantChar (c : Char) : Bool := c = '*' || c = '+' || c = '?'

/-- Numeric value of a digit run. -/
def digitsVal (ds : PyStr) : Nat :=
  ds.foldl (fun a c => a * 10 + (c.toNat - 48)) 0

/-- A brace repetition after its opening "{": none when the text is not
of quantifier shape (re treats the brace as a literal), some none when
it is a quantifier with min greater than max (a hard error), and
some (some rest) for a valid quantifier.  "{}" is a literal. -/
def braceQuant (s : PyStr) : Option (Option PyStr) :=
  match s.dropWhile Char.isDigit with
  | '}' :: rest =>
    if s.takeWhile Char.isDigit = [] then none else some (some rest)
  | ',' :: r2 =>
    match r2.dropWhile Char.isDigit with
    | '}' :: rest =>
      if s.takeWhile Char.isDigit ≠ [] ∧ r2.takeWhile Char.isDigit ≠ [] ∧
          digitsVal (r2.takeWhile Char.isDigit) <
            digitsVal (s.takeWhile Char.isDigit) then
        some none
      else some (some rest)
    | _ => none
  | _ => none

/-- A quantifier token at the head of s: star, plus, question mark, or
a brace repetition of quantifier shape. -/
def quantToken : PyStr → Option (Option PyStr)
  | [] => none
  | c :: r =>
    if isQuantChar c then some (some r)
    else if c = '{' then braceQuant r
    else none

/-- After an atom: an optional quantifier, optionally made lazy or
possessive; a further quantifier right after is "multiple repeat" and
rejected, as re.compile does. -/
def quantTail (s : PyStr) : Option PyStr :=
  match quantToken s with
  | none => some s
  | some none => none
  | some (some r) =>
    match r with
    | [] => some []
    | c2 :: rr =>
      if c2 = '?' || c2 = '+' then
        match quantToken rr with
        | none => some rr
        | some _ => none
      else
        match quantToken r with
        | none => some r
        | some _ => none

/-- Escape letters that re accepts (character classes and anchors); an
escape of another letter is a "bad escape" error. -/
def okEscape (c : Char) : Bool :=
  ¬ c.isAlpha ||
    (c ∈ ['d', 'D', 's', 'S', 'w', 'W', 'b', 'B', 'A', 'Z', 'a', 'f', 'n', 'r', 't', 'v'])

/-- Body of a bracket class after "[" (and after the optional "^" and a
leading literal "]" have been taken): items until the closing "]";
running out of input is an unterminated class. -/
def classBody : PyStr → Option PyStr
  | [] => none
  | ']' :: rest => some rest
  | '\\' :: [] => none
  | '\\' :: c :: rest => if okEscape c then classBody rest else none
  | _ :: rest => classBody rest

/-- A bracket class after its opening "[": optional negation, then a
"]" in first position is a literal member. -/
def parseClass (s : PyStr) : Option PyStr :=
  match s with
  | '^' :: ']' :: rest => classBody rest
  | '^' :: rest => classBody rest
  | ']' :: rest => classBody rest
  | rest => classBody rest

mutual

/-- An alternation: sequences separated by "|". -/
def parseAlt : Nat → PyStr → Option PyStr
  | 0, _ => none
  | fuel + 1, s =>
    match parseSeq fuel s with
    | none => none
    | some ('|' :: rest) => parseAlt fuel rest
    | some r => some r

/-- A concatenation of quantified atoms, stopping before "|", ")" or
the end; a leading quantifier (also of brace shape) is "nothing to
repeat" and rejected. -/
def parseSeq : Nat → PyStr → Option PyStr
  | 0, _ => none
  | fuel + 1, s =>
    match s with
    | [] => some []
    | ')' :: _ => some s
    | '|' :: _ => some s
    | c :: cs =>
      if isQuantChar c then none
      else if c = '{' ∧ (braceQuant cs).isSome then none
      else
        match parseAtom fuel s with
        | none => none
        | some r =>
          match quantTail r with
          | none => none
          | some r2 => parseSeq fuel r2

/-- The body of a group up to its closing parenthesis. -/
def parseGroupBody : Nat → PyStr → Option PyStr
  | 0, _ => none
  | fuel + 1, s =>
    match parseAlt fuel s with
    | some (')' :: r) => some r
    | _ => none

/-- One atom: a group (plain, non-capturing or look-ahead), a class, an
escape, or a literal character; the other "(?" extension forms are not
generated by the module's templates and are rejected. -/
def parseAtom : Nat → PyStr → Option PyStr
  | 0, _ => none
  | fuel + 1, s =>
    match s with
    | [] => none
    | '(' :: '?' :: ':' :: rest => parseGroupBody fuel rest
    | '(' :: '?' :: '=' :: rest => parseGroupBody fuel rest
    | '(' :: '?' :: '!' :: rest => parseGroupBody fuel rest
    | '(' :: '?' :: _ => none
    | '(' :: rest => parseGroupBody fuel rest
    | '[' :: rest => parseClass rest
    | '\\' :: [] => none
    | '\\' :: c :: r => if okEscape c then some r else none
    | ')' :: _ => none
    | c :: r => if isQuantChar c then none else some r

end

/-- re.compile succeeds on the expression text exactly when the whole
text parses as a pattern. -/
def pyRegexOk (s : PyStr) : Bool :=
  match parseAlt (2 * s.length + 2) s with
  | some [] => true
  | _ => false

/-- Py3status.post_config_hook: compile the two patterns from the
configured words; a malformed expression raises at setup and no pattern
state is produced. -/
def postConfigHook (cfg : Config) : Option (PyStr × PyStr) :=
  if pyRegexOk (afterDelimiterExpr cfg.sanitize_words) &&
      pyRegexOk (insideBracketsExpr cfg.sanitize_words) then
    some (afterDelimiterExpr cfg.sanitize_words,
      insideBracketsExpr cfg.sanitize_words)
  else none

/-- C9 counterexample: with an empty sanitize-word list both generated
patterns compile (the joined word list is the empty text, and the
resulting empty group "()" is a valid sub-pattern), so setup does not
fail hard on an empty word list. -/
theorem compile_empty_words_ok :
    pyRegexOk (afterDelimiterExpr []) = true ∧
      pyRegexOk (insideBracketsExpr []) = true ∧
      postConfigHook ⟨defaultConfig.format, defaultConfig.format_down,
        defaultConfig.format_stopped, true, []⟩ ≠ none := by
  refine ⟨by decide, by decide, by decide⟩

/-- C9 (amended): pattern compilation is performed once at setup by
post_config_hook; it fails hard there when a configured word contains
characters that break the expression, such as an unbalanced "(", while
the empty word list compiles successfully. -/
theorem compile_words_validity :
    postConfigHook ⟨defaultConfig.format, defaultConfig.format_down,
        defaultConfig.format_stopped, true, ["(".toList]⟩ = none ∧
      postConfigHook ⟨defaultConfig.format, defaultConfig.format_down,
        defaultConfig.format_stopped, true, []⟩ ≠ none ∧
      postConfigHook defaultConfig ≠ none := by
  refine ⟨by decide, by decide, by decide⟩

end Mellowplayer
